import Mathlib

/-!
Shallow embedding of `src/app.py` (a single-file Streamlit dashboard) and
verification of its specification claims.

Modelling conventions:
* Python strings are Lean `String`s; character-level work happens on `List Char`.
* External HTTP providers are modelled as oracle functions from the query
  string to an `Except Unit` response (an exception, or parsed JSON payload).
* Python functions that swallow exceptions and return `None` become total Lean
  functions into `Option`.
* Mutable module state (`reminders` list plus its on-disk JSON document) is
  passed explicitly as a `Store`.
-/

namespace Dashboard

/-- Python whitespace as recognised by `str.strip()` / `str.split()`
(ASCII subset: space, tab, newline, carriage return, vertical tab, form feed). -/
def isPySpace (c : Char) : Bool :=
  c = ' ' || c = '\t' || c = '\n' || c = '\r' || c = '\x0b' || c = '\x0c'

/-- Python `str.lstrip()` on a character list. -/
def lstrip (l : List Char) : List Char := l.dropWhile isPySpace

/-- Python `str.rstrip()` on a character list. -/
def rstrip (l : List Char) : List Char := (l.reverse.dropWhile isPySpace).reverse

/-- Python `str.strip()`. -/
def pyStrip (l : List Char) : List Char := rstrip (lstrip l)

/-- Python `s.replace("/", ", ")`: every slash becomes a comma followed by a space. -/
def replaceSlash : List Char → List Char
  | [] => []
  | c :: cs => if c = '/' then ',' :: ' ' :: replaceSlash cs else c :: replaceSlash cs

/-- Worker for Python `str.split()` (split on whitespace runs, dropping empty
fields); `acc` holds the current token, reversed. -/
def pySplitAux : List Char → List Char → List (List Char)
  | [], acc => if acc.isEmpty then [] else [acc.reverse]
  | c :: cs, acc =>
    if isPySpace c then
      if acc.isEmpty then pySplitAux cs [] else acc.reverse :: pySplitAux cs []
    else
      pySplitAux cs (c :: acc)

/-- Python `str.split()` with no arguments. -/
def pySplit (l : List Char) : List (List Char) := pySplitAux l []

/-- Python `" ".join(tokens)`. -/
def joinTokens : List (List Char) → List Char
  | [] => []
  | [t] => t
  | t :: ts => t ++ ' ' :: joinTokens ts

/-- Character-list core of `sanitize_city_input`:
strip, replace `/` with `", "`, then collapse whitespace via split + join. -/
def sanitizeChars (l : List Char) : List Char :=
  joinTokens (pySplit (replaceSlash (pyStrip l)))

/-- `sanitize_city_input(s)` from `src/app.py`.  The argument is `Option String`
because the Python function guards against `None` via `(s or "")`. -/
def sanitize_city_input (s : Option String) : String :=
  ⟨sanitizeChars (s.getD "").data⟩

/-- A parsed hit from the Open-Meteo geocoder's `results` array.  Coordinates
are carried opaquely (scaled integers); the code only passes them through. -/
structure GeoHit where
  latitude : Int
  longitude : Int
  deriving DecidableEq, Repr

/-- A parsed hit from the Nominatim response array (its `lat`/`lon` fields are
strings in JSON; the code converts them with `float`, modelled as done). -/
structure NomHit where
  lat : Int
  lon : Int
  deriving DecidableEq, Repr

/-- A provider call: the sanitized query string goes in, and either an
exception occurred (transport error, bad JSON, missing field) or a list of
parsed hits comes back. -/
abbrev Provider (α : Type) := String → Except Unit (List α)

/-- `geocode_city(name)` from `src/app.py`: sanitize, try Open-Meteo, on
exception or zero results fall back to Nominatim, return `none` if both fail. -/
def geocode_city (primary : Provider GeoHit) (fallback : Provider NomHit)
    (name : String) : Option (Int × Int) :=
  let cleaned := sanitize_city_input (some name)
  match primary cleaned with
  | .ok (h :: _) => some (h.latitude, h.longitude)
  | _ =>
    match fallback cleaned with
    | .ok (h :: _) => some (h.lat, h.lon)
    | _ => none

/-! ### Lemmas about the sanitizer -/

theorem replaceSlash_append (a b : List Char) :
    replaceSlash (a ++ b) = replaceSlash a ++ replaceSlash b := by
  induction a with
  | nil => rfl
  | cons c cs ih => by_cases h : c = '/' <;> simp [replaceSlash, h, ih]

theorem slash_not_mem_replaceSlash (l : List Char) : '/' ∉ replaceSlash l := by
  induction l with
  | nil => simp [replaceSlash]
  | cons c cs ih =>
    by_cases h : c = '/'
    · simp [replaceSlash, h, ih]
    · simp only [replaceSlash, h, ite_false, List.mem_cons, not_or]
      exact ⟨fun hc => h hc.symm, ih⟩

theorem replaceSlash_eq_self {l : List Char} (h : '/' ∉ l) : replaceSlash l = l := by
  induction l with
  | nil => rfl
  | cons c cs ih =>
    simp only [List.mem_cons, not_or] at h
    have hc : ¬ c = '/' := fun hc => h.1 hc.symm
    simp [replaceSlash, hc, ih h.2]

theorem isPySpace_slash_false : isPySpace '/' = false := by decide

theorem pySplitAux_all_space : ∀ (s : List Char), (∀ c ∈ s, isPySpace c = true) →
    ∀ acc, pySplitAux s acc = if acc.isEmpty then [] else [acc.reverse] := by
  intro s
  induction s with
  | nil => intro _ acc; rfl
  | cons c cs ih =>
    intro hs acc
    have hc : isPySpace c = true := hs c (by simp)
    have hcs : ∀ c ∈ cs, isPySpace c = true := fun c hmem => hs c (by simp [hmem])
    have hnil := ih hcs []
    by_cases ha : acc.isEmpty <;> simp [pySplitAux, hc, ha, hnil]

theorem pySplitAux_space_front : ∀ (s : List Char), (∀ c ∈ s, isPySpace c = true) →
    ∀ l, pySplitAux (s ++ l) [] = pySplitAux l [] := by
  intro s
  induction s with
  | nil => intro _ l; rfl
  | cons c cs ih =>
    intro hs l
    have hc : isPySpace c = true := hs c (by simp)
    have hcs : ∀ c ∈ cs, isPySpace c = true := fun c hmem => hs c (by simp [hmem])
    simp [pySplitAux, hc, ih hcs]

theorem pySplitAux_space_suffix {s : List Char} (hs : ∀ c ∈ s, isPySpace c = true)
    (l acc : List Char) : pySplitAux (l ++ s) acc = pySplitAux l acc := by
  induction l generalizing acc with
  | nil =>
    simp only [List.nil_append]
    rw [pySplitAux_all_space s hs acc]; rfl
  | cons c cs ih =>
    by_cases hc : isPySpace c <;> by_cases ha : acc.isEmpty <;>
      simp [pySplitAux, hc, ha, ih]

theorem pySplitAux_token : ∀ (t : List Char), (∀ c ∈ t, isPySpace c = false) →
    ∀ r acc, pySplitAux (t ++ r) acc = pySplitAux r (t.reverse ++ acc) := by
  intro t
  induction t with
  | nil => intro _ r acc; rfl
  | cons c cs ih =>
    intro ht r acc
    have hc : isPySpace c = false := ht c (by simp)
    have hcs : ∀ c ∈ cs, isPySpace c = false := fun c hmem => ht c (by simp [hmem])
    simp [pySplitAux, hc, ih hcs]

/-- Tokens produced by `str.split()` are non-empty and whitespace-free. -/
theorem pySplitAux_tokens (l : List Char) :
    ∀ acc, (∀ c ∈ acc, isPySpace c = false) →
      ∀ t ∈ pySplitAux l acc, t ≠ [] ∧ ∀ c ∈ t, isPySpace c = false := by
  induction l with
  | nil =>
    intro acc hacc t ht
    simp only [pySplitAux] at ht
    by_cases ha : acc.isEmpty
    · simp [ha] at ht
    · simp only [ha, if_neg, Bool.false_eq_true, ite_false, List.mem_singleton] at ht
      subst ht
      refine ⟨?_, fun c hc => hacc c (List.mem_reverse.mp hc)⟩
      intro hnil
      rw [List.reverse_eq_nil_iff] at hnil
      simp [hnil] at ha
  | cons c cs ih =>
    intro acc hacc t ht
    simp only [pySplitAux] at ht
    by_cases hc : isPySpace c
    · by_cases ha : acc.isEmpty
      · simp only [hc, if_true, ha, if_true] at ht
        exact ih [] (by simp) t ht
      · simp only [hc, if_true, ha, Bool.false_eq_true, ite_false, List.mem_cons] at ht
        rcases ht with rfl | ht
        · refine ⟨?_, fun x hx => hacc x (List.mem_reverse.mp hx)⟩
          intro hnil
          rw [List.reverse_eq_nil_iff] at hnil
          simp [hnil] at ha
        · exact ih [] (by simp) t ht
    · simp only [hc, Bool.false_eq_true, ite_false] at ht
      refine ih (c :: acc) ?_ t ht
      intro x hx
      rcases List.mem_cons.mp hx with rfl | hx
      · simpa using hc
      · exact hacc x hx

theorem pySplit_tokens {l : List Char} :
    ∀ t ∈ pySplit l, t ≠ [] ∧ ∀ c ∈ t, isPySpace c = false :=
  pySplitAux_tokens l [] (by simp)

/-- Characters of `str.split()` tokens all come from the input (or the seed
accumulator). -/
theorem pySplitAux_chars (l : List Char) :
    ∀ acc, ∀ t ∈ pySplitAux l acc, ∀ c ∈ t, c ∈ l ∨ c ∈ acc := by
  induction l with
  | nil =>
    intro acc t ht c hc
    simp only [pySplitAux] at ht
    by_cases ha : acc.isEmpty
    · simp [ha] at ht
    · simp only [ha, Bool.false_eq_true, ite_false, List.mem_singleton] at ht
      subst ht
      exact Or.inr (List.mem_reverse.mp hc)
  | cons x xs ih =>
    intro acc t ht c hc
    simp only [pySplitAux] at ht
    by_cases hx : isPySpace x
    · by_cases ha : acc.isEmpty
      · simp only [hx, if_true, ha, if_true] at ht
        rcases ih [] t ht c hc with h | h
        · exact Or.inl (List.mem_cons_of_mem x h)
        · simp at h
      · simp only [hx, if_true, ha, Bool.false_eq_true, ite_false, List.mem_cons] at ht
        rcases ht with rfl | ht
        · exact Or.inr (List.mem_reverse.mp hc)
        · rcases ih [] t ht c hc with h | h
          · exact Or.inl (List.mem_cons_of_mem x h)
          · simp at h
    · simp only [hx, Bool.false_eq_true, ite_false] at ht
      rcases ih (x :: acc) t ht c hc with h | h
      · exact Or.inl (List.mem_cons_of_mem x h)
      · rcases List.mem_cons.mp h with rfl | h
        · exact Or.inl (List.mem_cons_self c xs)
        · exact Or.inr h

theorem pySplit_chars {l : List Char} :
    ∀ t ∈ pySplit l, ∀ c ∈ t, c ∈ l := by
  intro t ht c hc
  rcases pySplitAux_chars l [] t ht c hc with h | h
  · exact h
  · simp at h

/-- Re-splitting a space-join of good tokens recovers the tokens. -/
theorem pySplit_joinTokens {ts : List (List Char)}
    (h : ∀ t ∈ ts, t ≠ [] ∧ ∀ c ∈ t, isPySpace c = false) :
    pySplit (joinTokens ts) = ts := by
  induction ts with
  | nil => rfl
  | cons t rest ih =>
    obtain ⟨hne, hns⟩ := h t (by simp)
    have hrest : ∀ u ∈ rest, u ≠ [] ∧ ∀ c ∈ u, isPySpace c = false :=
      fun u hu => h u (by simp [hu])
    have hrevne : (t.reverse.isEmpty) = false := by
      rw [List.isEmpty_eq_false_iff_exists_mem]
      rcases List.exists_mem_of_ne_nil t hne with ⟨c, hc⟩
      exact ⟨c, List.mem_reverse.mpr hc⟩
    cases rest with
    | nil =>
      show pySplitAux t [] = [t]
      have htok := pySplitAux_token t hns [] []
      simp only [List.append_nil] at htok
      rw [htok]
      simp [pySplitAux, hrevne]
    | cons u us =>
      show pySplitAux (t ++ ' ' :: joinTokens (u :: us)) [] = t :: u :: us
      rw [pySplitAux_token t hns (' ' :: joinTokens (u :: us)) []]
      simp only [List.append_nil]
      show (if isPySpace ' ' then _ else _) = t :: u :: us
      simp only [show isPySpace ' ' = true from rfl, if_true, hrevne,
        Bool.false_eq_true, ite_false, List.reverse_reverse]
      have hih := ih hrest
      unfold pySplit at hih
      rw [hih]

/-- Stripping before the slash-replacement does not change the token list:
`split()` already ignores surrounding whitespace, and `replace` maps the
whitespace affixes to themselves. -/
theorem pySplit_replaceSlash_pyStrip (l : List Char) :
    pySplit (replaceSlash (pyStrip l)) = pySplit (replaceSlash l) := by
  have hdecompL : l = l.takeWhile isPySpace ++ lstrip l :=
    (List.takeWhile_append_dropWhile isPySpace l).symm
  have hpre : ∀ c ∈ l.takeWhile isPySpace, isPySpace c = true :=
    fun c hc => List.mem_takeWhile_imp hc
  have hdecompR : lstrip l = rstrip (lstrip l) ++ ((lstrip l).reverse.takeWhile isPySpace).reverse := by
    conv_lhs => rw [← List.reverse_reverse (lstrip l),
      ← List.takeWhile_append_dropWhile isPySpace (lstrip l).reverse]
    rw [List.reverse_append]
    rfl
  have hsuf : ∀ c ∈ ((lstrip l).reverse.takeWhile isPySpace).reverse, isPySpace c = true :=
    fun c hc => List.mem_takeWhile_imp (List.mem_reverse.mp hc)
  have hprefl : replaceSlash (l.takeWhile isPySpace) = l.takeWhile isPySpace := by
    refine replaceSlash_eq_self ?_
    intro hmem
    have := hpre _ hmem
    simp [isPySpace_slash_false] at this
  have hsufl : replaceSlash ((lstrip l).reverse.takeWhile isPySpace).reverse
      = ((lstrip l).reverse.takeWhile isPySpace).reverse := by
    refine replaceSlash_eq_self ?_
    intro hmem
    have := hsuf _ hmem
    simp [isPySpace_slash_false] at this
  conv_rhs => rw [hdecompL, replaceSlash_append, hprefl]
  unfold pySplit
  rw [pySplitAux_space_front _ hpre]
  conv_rhs => rw [hdecompR, replaceSlash_append, hsufl]
  rw [pySplitAux_space_suffix hsuf]
  rfl

/-- Characters of a space-join come from a token or are the space separator. -/
theorem mem_joinTokens {ts : List (List Char)} {c : Char} (hc : c ∈ joinTokens ts) :
    (∃ t ∈ ts, c ∈ t) ∨ c = ' ' := by
  induction ts with
  | nil => simp [joinTokens] at hc
  | cons t rest ih =>
    cases rest with
    | nil => exact Or.inl ⟨t, by simp, hc⟩
    | cons u us =>
      simp only [joinTokens, List.mem_append, List.mem_cons] at hc
      rcases hc with h | h | h
      · exact Or.inl ⟨t, by simp, h⟩
      · exact Or.inr h
      · rcases ih h with ⟨t', ht', hc'⟩ | h'
        · exact Or.inl ⟨t', by simp [ht'], hc'⟩
        · exact Or.inr h'

/-- The sanitizer is idempotent at the character level. -/
theorem sanitizeChars_idem (l : List Char) :
    sanitizeChars (sanitizeChars l) = sanitizeChars l := by
  unfold sanitizeChars
  set ts := pySplit (replaceSlash (pyStrip l)) with hts
  have htok : ∀ t ∈ ts, t ≠ [] ∧ ∀ c ∈ t, isPySpace c = false := by
    rw [hts]; exact pySplit_tokens
  have hnoslash : '/' ∉ joinTokens ts := by
    intro hmem
    rcases mem_joinTokens hmem with ⟨t, ht, hc⟩ | h
    · have : '/' ∈ replaceSlash (pyStrip l) := by
        rw [hts] at ht
        exact pySplit_chars t ht '/' hc
      exact slash_not_mem_replaceSlash _ this
    · exact absurd h (by decide)
  rw [pySplit_replaceSlash_pyStrip, replaceSlash_eq_self hnoslash,
    pySplit_joinTokens htok]

/-- The chain relation stating that no two adjacent characters are both whitespace. -/
def noWsRun (a b : Char) : Prop := ¬(isPySpace a = true ∧ isPySpace b = true)

theorem chain'_nonspace : ∀ (t : List Char), (∀ c ∈ t, isPySpace c = false) →
    t.Chain' noWsRun := by
  intro t
  induction t with
  | nil => intro _; simp
  | cons c cs ih =>
    intro h
    have hc : isPySpace c = false := h c (by simp)
    have hcs : ∀ x ∈ cs, isPySpace x = false := fun x hx => h x (by simp [hx])
    rw [List.chain'_cons']
    refine ⟨fun y _ => ?_, ih hcs⟩
    intro ⟨hca, _⟩
    rw [hc] at hca
    exact Bool.false_ne_true hca

/-- Predicate bundling the invariant of `str.split()` output. -/
def GoodTokens (ts : List (List Char)) : Prop :=
  ∀ t ∈ ts, t ≠ [] ∧ ∀ c ∈ t, isPySpace c = false

theorem joinTokens_ne_nil {ts : List (List Char)} (hne : ts ≠ [])
    (h : GoodTokens ts) : joinTokens ts ≠ [] := by
  cases ts with
  | nil => exact absurd rfl hne
  | cons t rest =>
    cases rest with
    | nil => exact (h t (by simp)).1
    | cons u us => simp [joinTokens]

theorem joinTokens_head_good {ts : List (List Char)} (h : GoodTokens ts) :
    ∀ c, (joinTokens ts).head? = some c → isPySpace c = false := by
  intro c hc
  cases ts with
  | nil => simp [joinTokens] at hc
  | cons t rest =>
    obtain ⟨hne, hns⟩ := h t (by simp)
    obtain ⟨x, t', rfl⟩ := List.exists_cons_of_ne_nil hne
    cases rest with
    | nil =>
      simp only [joinTokens, List.head?_cons, Option.some.injEq] at hc
      exact hc ▸ hns x (by simp)
    | cons u us =>
      simp only [joinTokens, List.cons_append, List.head?_cons, Option.some.injEq] at hc
      exact hc ▸ hns x (by simp)

theorem joinTokens_getLast_good : ∀ (ts : List (List Char)), GoodTokens ts →
    ∀ c, (joinTokens ts).getLast? = some c → isPySpace c = false := by
  intro ts
  induction ts with
  | nil => intro _ c hc; simp [joinTokens] at hc
  | cons t rest ih =>
    intro h c hc
    have hrest : GoodTokens rest := fun u hu => h u (by simp [hu])
    cases rest with
    | nil =>
      have : c ∈ t := List.mem_of_mem_getLast? hc
      exact (h t (by simp)).2 c this
    | cons u us =>
      have hjoin_ne : joinTokens (u :: us) ≠ [] :=
        joinTokens_ne_nil (by simp) hrest
      obtain ⟨x, xs, hx⟩ := List.exists_cons_of_ne_nil hjoin_ne
      have hstep : (joinTokens (t :: u :: us)).getLast? = (joinTokens (u :: us)).getLast? := by
        show (t ++ ' ' :: joinTokens (u :: us)).getLast? = _
        rw [List.getLast?_append_of_ne_nil t (by simp), hx, List.getLast?_cons_cons]
      rw [hstep] at hc
      exact ih hrest c hc

theorem joinTokens_chain : ∀ (ts : List (List Char)), GoodTokens ts →
    (joinTokens ts).Chain' noWsRun := by
  intro ts
  induction ts with
  | nil => intro _; simp [joinTokens]
  | cons t rest ih =>
    intro h
    obtain ⟨hne, hns⟩ := h t (by simp)
    have hrest : GoodTokens rest := fun u hu => h u (by simp [hu])
    cases rest with
    | nil => exact chain'_nonspace t hns
    | cons u us =>
      show (t ++ ' ' :: joinTokens (u :: us)).Chain' noWsRun
      rw [List.chain'_append]
      refine ⟨chain'_nonspace t hns, ?_, ?_⟩
      · rw [List.chain'_cons']
        refine ⟨fun y hy => ?_, ih hrest⟩
        have : isPySpace y = false := joinTokens_head_good hrest y hy
        intro ⟨_, hyb⟩
        rw [this] at hyb
        exact Bool.false_ne_true hyb
      · intro x hx y _
        have : isPySpace x = false := hns x (List.mem_of_mem_getLast? hx)
        intro ⟨hxa, _⟩
        rw [this] at hxa
        exact Bool.false_ne_true hxa

theorem sanitizeChars_tokens_good (l : List Char) :
    GoodTokens (pySplit (replaceSlash (pyStrip l))) := pySplit_tokens

theorem slash_not_mem_sanitizeChars (l : List Char) : '/' ∉ sanitizeChars l := by
  intro hmem
  rcases mem_joinTokens hmem with ⟨t, ht, hc⟩ | h
  · exact slash_not_mem_replaceSlash _ (pySplit_chars t ht '/' hc)
  · exact absurd h (by decide)

theorem sanitize_data (s : String) :
    (sanitize_city_input (some s)).data = sanitizeChars s.data := rfl

/-! ### Claims about the sanitizer and the geocoder -/

/-- C1: whenever the primary (Open-Meteo) geocoder returns a non-empty results
list for the sanitized input, `geocode_city` returns the primary provider's
top hit, and the result does not depend on the fallback (Nominatim) provider
at all — so the fallback is never consulted. -/
theorem geocode_primary_hit_wins (p : Provider GeoHit) (f : Provider NomHit)
    (name : String) (h : GeoHit) (rest : List GeoHit)
    (hp : p (sanitize_city_input (some name)) = .ok (h :: rest)) :
    geocode_city p f name = some (h.latitude, h.longitude) ∧
    ∀ f' : Provider NomHit, geocode_city p f' name = geocode_city p f name := by
  constructor
  · simp only [geocode_city]
    rw [hp]
  · intro f'
    simp only [geocode_city]
    rw [hp]

/-- Witness for C1 at a concrete provider pair and city string. -/
theorem geocode_primary_hit_wins_witness :
    geocode_city (fun _ => .ok [⟨387, -1212⟩]) (fun _ => .ok [⟨1, 2⟩]) "Rocklin/CA"
      = some (387, -1212) ∧
    ∀ f' : Provider NomHit,
      geocode_city (fun _ => .ok [⟨387, -1212⟩]) f' "Rocklin/CA"
        = geocode_city (fun _ => .ok [⟨387, -1212⟩]) (fun _ => .ok [⟨1, 2⟩]) "Rocklin/CA" :=
  geocode_primary_hit_wins (fun _ => .ok [⟨387, -1212⟩]) (fun _ => .ok [⟨1, 2⟩])
    "Rocklin/CA" ⟨387, -1212⟩ [] rfl

/-- C2: when the primary geocoder fails (exception or zero results) and the
fallback also fails or returns an empty list, `geocode_city` evaluates to
`none` (the `NotFound` value) — it is a total function, so no exception
escapes to the caller. -/
theorem geocode_both_fail (p : Provider GeoHit) (f : Provider NomHit) (name : String)
    (hp : p (sanitize_city_input (some name)) = .error () ∨
          p (sanitize_city_input (some name)) = .ok [])
    (hf : f (sanitize_city_input (some name)) = .error () ∨
          f (sanitize_city_input (some name)) = .ok []) :
    geocode_city p f name = none := by
  simp only [geocode_city]
  rcases hp with hp | hp <;> rcases hf with hf | hf <;> rw [hp, hf]

/-- Witness for C2 at concrete failing providers. -/
theorem geocode_both_fail_witness :
    geocode_city (fun _ => .error ()) (fun _ => .ok []) "Atlantis" = none :=
  geocode_both_fail (fun _ => .error ()) (fun _ => .ok []) "Atlantis"
    (Or.inl rfl) (Or.inr rfl)

/-- C3: sanitization strips surrounding whitespace, replaces `/` with `", "`,
and collapses whitespace runs (the output has no slash, no two adjacent
whitespace characters, and no leading or trailing whitespace); the geocoder
consults both providers only at the sanitized text (its result depends only on
the providers' answers there); and `"Rocklin/CA"` sanitizes to `"Rocklin, CA"`. -/
theorem sanitize_spec (s : String) (p p' : Provider GeoHit) (f f' : Provider NomHit)
    (hp : p (sanitize_city_input (some s)) = p' (sanitize_city_input (some s)))
    (hf : f (sanitize_city_input (some s)) = f' (sanitize_city_input (some s))) :
    geocode_city p f s = geocode_city p' f' s ∧
    sanitize_city_input (some "Rocklin/CA") = "Rocklin, CA" ∧
    '/' ∉ (sanitize_city_input (some s)).data ∧
    (sanitize_city_input (some s)).data.Chain' noWsRun ∧
    (∀ c, (sanitize_city_input (some s)).data.head? = some c → isPySpace c = false) ∧
    (∀ c, (sanitize_city_input (some s)).data.getLast? = some c → isPySpace c = false) := by
  refine ⟨?_, by decide, ?_, ?_, ?_, ?_⟩
  · simp only [geocode_city]
    rw [hp, hf]
  · rw [sanitize_data]
    exact slash_not_mem_sanitizeChars s.data
  · rw [sanitize_data]
    exact joinTokens_chain _ (sanitizeChars_tokens_good s.data)
  · rw [sanitize_data]
    exact fun c hc => joinTokens_head_good (sanitizeChars_tokens_good s.data) c hc
  · rw [sanitize_data]
    exact fun c hc => joinTokens_getLast_good _ (sanitizeChars_tokens_good s.data) c hc

/-- Witness for C3 at a concrete city string and provider pair. -/
theorem sanitize_spec_witness :
    geocode_city (fun _ => .ok []) (fun _ => .ok []) " Rocklin/ CA "
      = geocode_city (fun _ => .ok []) (fun _ => .ok []) " Rocklin/ CA " ∧
    sanitize_city_input (some "Rocklin/CA") = "Rocklin, CA" ∧
    '/' ∉ (sanitize_city_input (some " Rocklin/ CA ")).data ∧
    (sanitize_city_input (some " Rocklin/ CA ")).data.Chain' noWsRun ∧
    (∀ c, (sanitize_city_input (some " Rocklin/ CA ")).data.head? = some c →
      isPySpace c = false) ∧
    (∀ c, (sanitize_city_input (some " Rocklin/ CA ")).data.getLast? = some c →
      isPySpace c = false) :=
  sanitize_spec " Rocklin/ CA " (fun _ => .ok []) (fun _ => .ok [])
    (fun _ => .ok []) (fun _ => .ok []) rfl rfl

/-- C9: sanitization is total and idempotent: `None` and all-whitespace inputs
map to the empty string (no exception: the function is total), and sanitizing
an already-sanitized string changes nothing. -/
theorem sanitize_total_idem (s : String) (hws : ∀ c ∈ s.data, isPySpace c = true) :
    sanitize_city_input none = "" ∧
    sanitize_city_input (some s) = "" ∧
    ∀ t : String,
      sanitize_city_input (some (sanitize_city_input (some t))) =
        sanitize_city_input (some t) := by
  refine ⟨rfl, ?_, ?_⟩
  · show (⟨sanitizeChars s.data⟩ : String) = ""
    have hl : lstrip s.data = [] := by
      unfold lstrip
      rw [List.dropWhile_eq_nil_iff]
      intro c hc
      exact hws c hc
    have : sanitizeChars s.data = [] := by
      unfold sanitizeChars pyStrip
      rw [hl]
      rfl
    rw [this]
  · intro t
    show (⟨sanitizeChars (sanitize_city_input (some t)).data⟩ : String) = _
    rw [sanitize_data, sanitizeChars_idem]
    rfl

/-- Witness for C9 at a concrete all-whitespace string. -/
theorem sanitize_total_idem_witness :
    sanitize_city_input none = "" ∧
    sanitize_city_input (some "  \t ") = "" ∧
    ∀ t : String,
      sanitize_city_input (some (sanitize_city_input (some t))) =
        sanitize_city_input (some t) :=
  sanitize_total_idem "  \t " (by decide)

/-! ### Calendar dates (Python `datetime.date`) -/

/-- A Python `datetime.date` value (year, month, day). -/
structure PyDate where
  year : Nat
  month : Nat
  day : Nat
  deriving DecidableEq, Repr

/-- Gregorian leap-year rule, as used by `datetime.date`. -/
def isLeap (y : Nat) : Bool := (y % 4 = 0 && !(y % 100 = 0)) || y % 400 = 0

/-- Days in a month of a given year. -/
def daysInMonth (y m : Nat) : Nat :=
  if m = 2 then (if isLeap y then 29 else 28)
  else if m = 4 ∨ m = 6 ∨ m = 9 ∨ m = 11 then 30
  else 31

/-- The invariant every constructed Python `date` satisfies
(`datetime.MINYEAR = 1`, `datetime.MAXYEAR = 9999`). -/
def ValidDate (d : PyDate) : Prop :=
  1 ≤ d.year ∧ d.year ≤ 9999 ∧ 1 ≤ d.month ∧ d.month ≤ 12 ∧
  1 ≤ d.day ∧ d.day ≤ daysInMonth d.year d.month

instance (d : PyDate) : Decidable (ValidDate d) := by
  unfold ValidDate; infer_instance

/-- Python `date` comparison: lexicographic on `(year, month, day)`. -/
def dateLe (a b : PyDate) : Bool :=
  decide (a.year < b.year ∨ (a.year = b.year ∧
    (a.month < b.month ∨ (a.month = b.month ∧ a.day ≤ b.day))))

/-- A date collapsed to one natural number; for in-range months and days this
ordering agrees with `dateLe`. -/
def PyDate.key (d : PyDate) : Nat := d.year * 10000 + d.month * 100 + d.day

theorem dateLe_iff_key {a b : PyDate}
    (ha : a.month ≤ 99 ∧ a.day ≤ 99) (hb : b.month ≤ 99 ∧ b.day ≤ 99) :
    dateLe a b = true ↔ a.key ≤ b.key := by
  simp only [dateLe, PyDate.key, decide_eq_true_eq]
  obtain ⟨ham, had⟩ := ha
  obtain ⟨hbm, hbd⟩ := hb
  omega

/-- The numeric value of a decimal digit character, or `none`
(the model of one character's worth of `date.fromisoformat` digit parsing;
code points 48–57 are the ASCII digits). -/
def digitVal? (c : Char) : Option Nat :=
  if 48 ≤ c.toNat ∧ c.toNat ≤ 57 then some (c.toNat - 48) else none

/-- Character-level worker of `date.fromisoformat`: accepts exactly a ten
character string with four digits, a dash, two digits, a dash, two digits
denoting a valid calendar date; anything else raises (modelled as `none`). -/
def parseIsoChars : List Char → Option PyDate
  | l =>
  match l with
  | [y1, y2, y3, y4, h1, m1, m2, h2, d1, d2] =>
    if h1 = '-' ∧ h2 = '-' then
      match digitVal? y1, digitVal? y2, digitVal? y3, digitVal? y4,
            digitVal? m1, digitVal? m2, digitVal? d1, digitVal? d2 with
      | some a, some b, some c, some d, some e, some f, some g, some h =>
        let y := 1000 * a + 100 * b + 10 * c + d
        let mo := 10 * e + f
        let da := 10 * g + h
        if 1 ≤ y ∧ 1 ≤ mo ∧ mo ≤ 12 ∧ 1 ≤ da ∧ da ≤ daysInMonth y mo then
          some ⟨y, mo, da⟩
        else none
      | _, _, _, _, _, _, _, _ => none
    else none
  | _ => none

/-- `date.fromisoformat` on a Python string. -/
def parseIsoDate (s : String) : Option PyDate := parseIsoChars s.data

/-- A decimal digit rendered as a character (for values 0–9). -/
def digitChar (n : Nat) : Char :=
  match n with
  | 0 => '0' | 1 => '1' | 2 => '2' | 3 => '3' | 4 => '4'
  | 5 => '5' | 6 => '6' | 7 => '7' | 8 => '8' | _ => '9'

/-- `date.isoformat()`: zero-padded `YYYY-MM-DD`. -/
def isoformat (d : PyDate) : String :=
  ⟨[digitChar (d.year / 1000 % 10), digitChar (d.year / 100 % 10),
    digitChar (d.year / 10 % 10), digitChar (d.year % 10), '-',
    digitChar (d.month / 10 % 10), digitChar (d.month % 10), '-',
    digitChar (d.day / 10 % 10), digitChar (d.day % 10)]⟩

/-! ### Reminder store -/

/-- One stored reminder record (all three fields are persisted as strings). -/
structure Reminder where
  text : String
  due : String
  created : String
  deriving DecidableEq, Repr

/-- The reminder state: the in-memory module-level list and the persisted
`reminders.json` document. -/
structure Store where
  reminders : List Reminder
  disk : List Reminder
  deriving DecidableEq, Repr

/-- Python `str.strip()` on a `String`. -/
def pyStripStr (s : String) : String := ⟨pyStrip s.data⟩

/-- `add_reminder(text, due)`: append a record with stripped text,
`due.isoformat()` and a created timestamp, then persist the whole list. -/
def add_reminder (st : Store) (text : String) (due : PyDate) (created : String) :
    Store :=
  let rs := st.reminders ++ [⟨pyStripStr text, isoformat due, created⟩]
  ⟨rs, rs⟩

/-- `delete_reminder(index)`: remove the element at `index` and persist when
`0 <= index < len(reminders)`, otherwise do nothing. -/
def delete_reminder (st : Store) (index : Int) : Store :=
  if 0 ≤ index ∧ index < st.reminders.length then
    let rs := st.reminders.eraseIdx index.toNat
    ⟨rs, rs⟩
  else st

/-- Python string `<=` (lexicographic on code points). -/
def strLe : List Char → List Char → Bool
  | [], _ => true
  | _ :: _, [] => false
  | a :: as, b :: bs => if a = b then strLe as bs else decide (a.toNat < b.toNat)

/-- The sort key relation used by `sorted(out, key=lambda x: x["due"])`:
compare the raw `due` strings. -/
def dueLe (a b : Reminder) : Prop := strLe a.due.data b.due.data = true

instance : DecidableRel dueLe := fun a b =>
  inferInstanceAs (Decidable (strLe a.due.data b.due.data = true))

/-- The filter predicate of `get_reminders_for_range`: the `due` string must
parse as a date lying in `[start, end]`; a parse failure means the entry is
skipped (the `except: continue`). -/
def inRange (start stop : PyDate) (r : Reminder) : Bool :=
  match parseIsoDate r.due with
  | some d => dateLe start d && dateLe d stop
  | none => false

/-- `get_reminders_for_range(start, end)`: filter to entries due in the
inclusive range, then sort ascending by the `due` string. -/
def get_reminders_for_range (st : Store) (start stop : PyDate) : List Reminder :=
  (st.reminders.filter (inRange start stop)).insertionSort dueLe

/-! ### Lemmas about dates and ISO strings -/

theorem char_toNat_inj {a b : Char} (h : a.toNat = b.toNat) : a = b := by
  have hv : a.val = b.val := UInt32.toNat.inj h
  cases a; cases b; simp_all

theorem digitVal?_some {c : Char} {n : Nat} (h : digitVal? c = some n) :
    c.toNat = 48 + n ∧ n ≤ 9 := by
  unfold digitVal? at h
  split_ifs at h with hc
  injection h with h'
  omega

theorem parseIsoDate_inv {s : String} {d : PyDate} (h : parseIsoDate s = some d) :
    ∃ (ya yb yc yd mc1 mc2 dc1 dc2 : Char) (n1 n2 n3 n4 n5 n6 n7 n8 : Nat),
      s.data = [ya, yb, yc, yd, '-', mc1, mc2, '-', dc1, dc2] ∧
      digitVal? ya = some n1 ∧ digitVal? yb = some n2 ∧ digitVal? yc = some n3 ∧
      digitVal? yd = some n4 ∧ digitVal? mc1 = some n5 ∧ digitVal? mc2 = some n6 ∧
      digitVal? dc1 = some n7 ∧ digitVal? dc2 = some n8 ∧
      d = ⟨1000 * n1 + 100 * n2 + 10 * n3 + n4, 10 * n5 + n6, 10 * n7 + n8⟩ ∧
      1 ≤ d.year ∧ 1 ≤ d.month ∧ d.month ≤ 12 ∧ 1 ≤ d.day ∧
      d.day ≤ daysInMonth d.year d.month := by
  unfold parseIsoDate at h
  rcases hls : s.data with _ | ⟨c1, _ | ⟨c2, _ | ⟨c3, _ | ⟨c4, _ | ⟨c5, _ | ⟨c6, _ | ⟨c7, _ | ⟨c8, _ | ⟨c9, _ | ⟨c10, _ | ⟨c11, rest⟩⟩⟩⟩⟩⟩⟩⟩⟩⟩⟩
  all_goals rw [hls] at h
  all_goals try exact Option.noConfusion h
  simp only [parseIsoChars] at h
  by_cases hdash : c5 = '-' ∧ c8 = '-'
  case neg => rw [if_neg hdash] at h; exact Option.noConfusion h
  rw [if_pos hdash] at h
  obtain ⟨hd5, hd8⟩ := hdash
  subst hd5; subst hd8
  rcases hv1 : digitVal? c1 with _ | n1 <;> rw [hv1] at h
  · exact Option.noConfusion h
  rcases hv2 : digitVal? c2 with _ | n2 <;> rw [hv2] at h
  · exact Option.noConfusion h
  rcases hv3 : digitVal? c3 with _ | n3 <;> rw [hv3] at h
  · exact Option.noConfusion h
  rcases hv4 : digitVal? c4 with _ | n4 <;> rw [hv4] at h
  · exact Option.noConfusion h
  rcases hv5 : digitVal? c6 with _ | n5 <;> rw [hv5] at h
  · exact Option.noConfusion h
  rcases hv6 : digitVal? c7 with _ | n6 <;> rw [hv6] at h
  · exact Option.noConfusion h
  rcases hv7 : digitVal? c9 with _ | n7 <;> rw [hv7] at h
  · exact Option.noConfusion h
  rcases hv8 : digitVal? c10 with _ | n8 <;> rw [hv8] at h
  · exact Option.noConfusion h
  simp only at h
  split_ifs at h with hcond
  injection h with h'
  subst h'
  exact ⟨c1, c2, c3, c4, c6, c7, c9, c10, n1, n2, n3, n4, n5, n6, n7, n8,
    rfl, hv1, hv2, hv3, hv4, hv5, hv6, hv7, hv8, rfl,
    hcond.1, hcond.2.1, hcond.2.2.1, hcond.2.2.2.1, hcond.2.2.2.2⟩

theorem strLe_date_iff
    {ya yb yc yd mc1 mc2 dc1 dc2 ya' yb' yc' yd' mc1' mc2' dc1' dc2' : Char}
    {n1 n2 n3 n4 n5 n6 n7 n8 m1 m2 m3 m4 m5 m6 m7 m8 : Nat}
    (h1 : digitVal? ya = some n1) (h2 : digitVal? yb = some n2)
    (h3 : digitVal? yc = some n3) (h4 : digitVal? yd = some n4)
    (h5 : digitVal? mc1 = some n5) (h6 : digitVal? mc2 = some n6)
    (h7 : digitVal? dc1 = some n7) (h8 : digitVal? dc2 = some n8)
    (g1 : digitVal? ya' = some m1) (g2 : digitVal? yb' = some m2)
    (g3 : digitVal? yc' = some m3) (g4 : digitVal? yd' = some m4)
    (g5 : digitVal? mc1' = some m5) (g6 : digitVal? mc2' = some m6)
    (g7 : digitVal? dc1' = some m7) (g8 : digitVal? dc2' = some m8) :
    (strLe [ya, yb, yc, yd, '-', mc1, mc2, '-', dc1, dc2]
      [ya', yb', yc', yd', '-', mc1', mc2', '-', dc1', dc2'] = true) ↔
    (PyDate.mk (1000 * n1 + 100 * n2 + 10 * n3 + n4) (10 * n5 + n6) (10 * n7 + n8)).key ≤
    (PyDate.mk (1000 * m1 + 100 * m2 + 10 * m3 + m4) (10 * m5 + m6) (10 * m7 + m8)).key := by
  obtain ⟨t1, u1⟩ := digitVal?_some h1
  obtain ⟨t2, u2⟩ := digitVal?_some h2
  obtain ⟨t3, u3⟩ := digitVal?_some h3
  obtain ⟨t4, u4⟩ := digitVal?_some h4
  obtain ⟨t5, u5⟩ := digitVal?_some h5
  obtain ⟨t6, u6⟩ := digitVal?_some h6
  obtain ⟨t7, u7⟩ := digitVal?_some h7
  obtain ⟨t8, u8⟩ := digitVal?_some h8
  obtain ⟨s1, v1⟩ := digitVal?_some g1
  obtain ⟨s2, v2⟩ := digitVal?_some g2
  obtain ⟨s3, v3⟩ := digitVal?_some g3
  obtain ⟨s4, v4⟩ := digitVal?_some g4
  obtain ⟨s5, v5⟩ := digitVal?_some g5
  obtain ⟨s6, v6⟩ := digitVal?_some g6
  obtain ⟨s7, v7⟩ := digitVal?_some g7
  obtain ⟨s8, v8⟩ := digitVal?_some g8
  simp only [PyDate.key, strLe]
  by_cases e1 : ya = ya'
  case neg =>
    have hne : n1 ≠ m1 := fun he => e1 (char_toNat_inj (by omega))
    rw [if_neg e1]
    try simp only [decide_eq_true_eq]
    omega
  have hq : n1 = m1 := by rw [e1] at t1; omega
  subst hq
  rw [if_pos e1]
  by_cases e2 : yb = yb'
  case neg =>
    have hne : n2 ≠ m2 := fun he => e2 (char_toNat_inj (by omega))
    rw [if_neg e2]
    try simp only [decide_eq_true_eq]
    omega
  have hq : n2 = m2 := by rw [e2] at t2; omega
  subst hq
  rw [if_pos e2]
  by_cases e3 : yc = yc'
  case neg =>
    have hne : n3 ≠ m3 := fun he => e3 (char_toNat_inj (by omega))
    rw [if_neg e3]
    try simp only [decide_eq_true_eq]
    omega
  have hq : n3 = m3 := by rw [e3] at t3; omega
  subst hq
  rw [if_pos e3]
  by_cases e4 : yd = yd'
  case neg =>
    have hne : n4 ≠ m4 := fun he => e4 (char_toNat_inj (by omega))
    rw [if_neg e4]
    try simp only [decide_eq_true_eq]
    omega
  have hq : n4 = m4 := by rw [e4] at t4; omega
  subst hq
  rw [if_pos e4]
  rw [if_pos (trivial : True)]
  by_cases e5 : mc1 = mc1'
  case neg =>
    have hne : n5 ≠ m5 := fun he => e5 (char_toNat_inj (by omega))
    rw [if_neg e5]
    try simp only [decide_eq_true_eq]
    omega
  have hq : n5 = m5 := by rw [e5] at t5; omega
  subst hq
  rw [if_pos e5]
  by_cases e6 : mc2 = mc2'
  case neg =>
    have hne : n6 ≠ m6 := fun he => e6 (char_toNat_inj (by omega))
    rw [if_neg e6]
    try simp only [decide_eq_true_eq]
    omega
  have hq : n6 = m6 := by rw [e6] at t6; omega
  subst hq
  rw [if_pos e6]
  rw [if_pos (trivial : True)]
  by_cases e7 : dc1 = dc1'
  case neg =>
    have hne : n7 ≠ m7 := fun he => e7 (char_toNat_inj (by omega))
    rw [if_neg e7]
    try simp only [decide_eq_true_eq]
    omega
  have hq : n7 = m7 := by rw [e7] at t7; omega
  subst hq
  rw [if_pos e7]
  by_cases e8 : dc2 = dc2'
  case neg =>
    have hne : n8 ≠ m8 := fun he => e8 (char_toNat_inj (by omega))
    rw [if_neg e8]
    try simp only [decide_eq_true_eq]
    omega
  have hq : n8 = m8 := by rw [e8] at t8; omega
  subst hq
  rw [if_pos e8]
  simp

theorem digitVal?_digitChar {k : Nat} (hk : k ≤ 9) : digitVal? (digitChar k) = some k := by
  interval_cases k <;> decide

theorem daysInMonth_le (y m : Nat) : daysInMonth y m ≤ 31 := by
  unfold daysInMonth
  split_ifs <;> simp

/-- Round trip: `date.fromisoformat(d.isoformat())` recovers `d` for every
valid Python date. -/
theorem parse_isoformat {d : PyDate} (hd : ValidDate d) :
    parseIsoDate (isoformat d) = some d := by
  obtain ⟨y, mo, da⟩ := d
  obtain ⟨h1, h2, h3, h4, h5, h6⟩ := hd
  simp only at h1 h2 h3 h4 h5 h6
  have hda31 : da ≤ 31 := le_trans h6 (daysInMonth_le y mo)
  unfold isoformat parseIsoDate
  simp only
  simp only [parseIsoChars]
  rw [digitVal?_digitChar (by omega), digitVal?_digitChar (by omega),
    digitVal?_digitChar (by omega), digitVal?_digitChar (by omega),
    digitVal?_digitChar (by omega), digitVal?_digitChar (by omega),
    digitVal?_digitChar (by omega), digitVal?_digitChar (by omega)]
  simp only
  have hY : 1000 * (y / 1000 % 10) + 100 * (y / 100 % 10) + 10 * (y / 10 % 10) + y % 10 = y := by
    omega
  have hMO : 10 * (mo / 10 % 10) + mo % 10 = mo := by omega
  have hDA : 10 * (da / 10 % 10) + da % 10 = da := by omega
  rw [if_pos (by decide)]
  rw [hY, hMO, hDA]
  rw [if_pos (And.intro h1 (And.intro h3 (And.intro h4 (And.intro h5 h6))))]

/-! ### Sorting by the due string -/

theorem strLe_total : ∀ (as bs : List Char), strLe as bs = true ∨ strLe bs as = true := by
  intro as
  induction as with
  | nil => intro bs; left; rfl
  | cons a as ih =>
    intro bs
    cases bs with
    | nil => right; rfl
    | cons b bs =>
      by_cases hab : a = b
      · subst hab
        simp only [strLe, if_pos rfl]
        exact ih bs
      · have hne : a.toNat ≠ b.toNat := fun h => hab (char_toNat_inj h)
        simp only [strLe, if_neg hab, if_neg (Ne.symm hab), decide_eq_true_eq]
        omega

theorem strLe_trans : ∀ (as bs cs : List Char),
    strLe as bs = true → strLe bs cs = true → strLe as cs = true := by
  intro as
  induction as with
  | nil => intro bs cs _ _; rfl
  | cons a as ih =>
    intro bs cs h1 h2
    cases bs with
    | nil => exact absurd h1 (by simp [strLe])
    | cons b bs =>
      cases cs with
      | nil => exact absurd h2 (by simp [strLe])
      | cons c cs =>
        by_cases hab : a = b <;> by_cases hbc : b = c
        · subst hab; subst hbc
          simp only [strLe, if_pos rfl] at h1 h2 ⊢
          exact ih bs cs h1 h2
        · subst hab
          simp only [strLe, if_pos rfl] at h1
          simp only [strLe, if_neg hbc, decide_eq_true_eq] at h2
          simp only [strLe, if_neg hbc, decide_eq_true_eq]
          exact h2
        · subst hbc
          simp only [strLe, if_neg hab, decide_eq_true_eq] at h1
          simp only [strLe, if_neg hab, decide_eq_true_eq]
          exact h1
        · simp only [strLe, if_neg hab, decide_eq_true_eq] at h1
          simp only [strLe, if_neg hbc, decide_eq_true_eq] at h2
          have hac : a ≠ c := fun h => by rw [h] at h1; omega
          simp only [strLe, if_neg hac, decide_eq_true_eq]
          omega

instance : IsTotal Reminder dueLe := ⟨fun a b => strLe_total a.due.data b.due.data⟩

instance : IsTrans Reminder dueLe :=
  ⟨fun a b c => strLe_trans a.due.data b.due.data c.due.data⟩

/-- The parsed-date sort key of a reminder (0 when the due string is
unparsable; such entries never reach the sorted output). -/
def dueKey (r : Reminder) : Nat :=
  match parseIsoDate r.due with
  | some d => d.key
  | none => 0

/-- On reminders whose due strings parse, the string order used by the sort
agrees with chronological order of the parsed dates. -/
theorem dueLe_key_of_parse {a b : Reminder} {da db : PyDate}
    (hpa : parseIsoDate a.due = some da) (hpb : parseIsoDate b.due = some db)
    (hle : dueLe a b) : da.key ≤ db.key := by
  obtain ⟨ya, yb', yc, yd, mc1, mc2, dc1, dc2, n1, n2, n3, n4, n5, n6, n7, n8,
    hsa, ha1, ha2, ha3, ha4, ha5, ha6, ha7, ha8, hda, -⟩ := parseIsoDate_inv hpa
  obtain ⟨za, zb, zc, zd, ec1, ec2, fc1, fc2, k1, k2, k3, k4, k5, k6, k7, k8,
    hsb, hb1, hb2, hb3, hb4, hb5, hb6, hb7, hb8, hdb, -⟩ := parseIsoDate_inv hpb
  unfold dueLe at hle
  rw [hsa, hsb] at hle
  subst hda; subst hdb
  exact (strLe_date_iff ha1 ha2 ha3 ha4 ha5 ha6 ha7 ha8
    hb1 hb2 hb3 hb4 hb5 hb6 hb7 hb8).mp hle

/-- Unfolding of the range filter: it accepts exactly the entries whose due
string parses to a date inside the inclusive interval. -/
theorem inRange_eq_true {start stop : PyDate} {r : Reminder} :
    inRange start stop r = true ↔
    ∃ d, parseIsoDate r.due = some d ∧ dateLe start d = true ∧ dateLe d stop = true := by
  unfold inRange
  cases hp : parseIsoDate r.due with
  | none => simp
  | some d => simp [Bool.and_eq_true]

theorem query_perm (st : Store) (start stop : PyDate) :
    List.Perm (get_reminders_for_range st start stop)
      (st.reminders.filter (inRange start stop)) :=
  List.perm_insertionSort dueLe _

theorem query_mem (st : Store) (start stop : PyDate) (r : Reminder) :
    r ∈ get_reminders_for_range st start stop ↔
      r ∈ st.reminders ∧ inRange start stop r = true := by
  rw [(query_perm st start stop).mem_iff, List.mem_filter]

theorem query_sorted (st : Store) (start stop : PyDate) :
    (get_reminders_for_range st start stop).Pairwise
      (fun a b => dueKey a ≤ dueKey b) := by
  have hs : (get_reminders_for_range st start stop).Pairwise dueLe :=
    List.sorted_insertionSort dueLe _
  refine hs.imp_of_mem ?_
  intro a b ha hb hab
  obtain ⟨-, hina⟩ := (query_mem st start stop a).mp ha
  obtain ⟨-, hinb⟩ := (query_mem st start stop b).mp hb
  obtain ⟨da, hpa, -, -⟩ := inRange_eq_true.mp hina
  obtain ⟨db, hpb, -, -⟩ := inRange_eq_true.mp hinb
  simp only [dueKey, hpa, hpb]
  exact dueLe_key_of_parse hpa hpb hab

/-! ### Claims about the reminder store -/

/-- C4: `get_reminders_for_range(start, end)` returns exactly (a permutation
restatement) the stored entries whose due string parses as a date `d` with
`start <= d <= end`, inclusive on both ends, sorted ascending by due date;
entries with unparsable due strings are excluded (membership in the result
forces a successful parse), and the store itself is left untouched. -/
theorem query_range_spec (st : Store) (start stop : PyDate) :
    List.Perm (get_reminders_for_range st start stop)
      (st.reminders.filter (inRange start stop)) ∧
    (∀ r, r ∈ get_reminders_for_range st start stop ↔
      r ∈ st.reminders ∧ ∃ d, parseIsoDate r.due = some d ∧
        dateLe start d = true ∧ dateLe d stop = true) ∧
    (get_reminders_for_range st start stop).Pairwise
      (fun a b => dueKey a ≤ dueKey b) := by
  refine ⟨query_perm st start stop, fun r => ?_, query_sorted st start stop⟩
  rw [query_mem st start stop r, inRange_eq_true]

/-- C5: `delete_reminder(index)` with an out-of-bounds index leaves the store
(memory and disk document) unchanged and raises nothing; with an in-bounds
index it removes exactly the element at that position and persists the
shortened list. -/
theorem delete_reminder_spec (st : Store) (index : Int) :
    (¬(0 ≤ index ∧ index < st.reminders.length) → delete_reminder st index = st) ∧
    ((0 ≤ index ∧ index < st.reminders.length) →
      (delete_reminder st index).reminders =
        st.reminders.take index.toNat ++ st.reminders.drop (index.toNat + 1) ∧
      (delete_reminder st index).disk = (delete_reminder st index).reminders ∧
      (delete_reminder st index).reminders.length + 1 = st.reminders.length) := by
  constructor
  · intro h
    unfold delete_reminder
    rw [if_neg h]
  · intro h
    unfold delete_reminder
    rw [if_pos h]
    refine ⟨List.eraseIdx_eq_take_drop_succ _ _, rfl, ?_⟩
    rw [List.length_eraseIdx]
    obtain ⟨h0, hlt⟩ := h
    have : index.toNat < st.reminders.length := by omega
    simp [this]
    omega

/-- Witness for C5: deleting index 5 from a two-element store is a no-op,
and deleting index 0 removes exactly the first element. -/
theorem delete_reminder_spec_witness :
    delete_reminder
      ⟨[⟨"Pay rent", "2024-01-01", "2024-01-01T00:00:00+00:00"⟩,
        ⟨"Dentist", "2024-02-03", "2024-01-02T00:00:00+00:00"⟩],
       [⟨"Pay rent", "2024-01-01", "2024-01-01T00:00:00+00:00"⟩,
        ⟨"Dentist", "2024-02-03", "2024-01-02T00:00:00+00:00"⟩]⟩ 5 =
      ⟨[⟨"Pay rent", "2024-01-01", "2024-01-01T00:00:00+00:00"⟩,
        ⟨"Dentist", "2024-02-03", "2024-01-02T00:00:00+00:00"⟩],
       [⟨"Pay rent", "2024-01-01", "2024-01-01T00:00:00+00:00"⟩,
        ⟨"Dentist", "2024-02-03", "2024-01-02T00:00:00+00:00"⟩]⟩ ∧
    (delete_reminder
      ⟨[⟨"Pay rent", "2024-01-01", "2024-01-01T00:00:00+00:00"⟩,
        ⟨"Dentist", "2024-02-03", "2024-01-02T00:00:00+00:00"⟩],
       [⟨"Pay rent", "2024-01-01", "2024-01-01T00:00:00+00:00"⟩,
        ⟨"Dentist", "2024-02-03", "2024-01-02T00:00:00+00:00"⟩]⟩ 0).reminders =
      [⟨"Dentist", "2024-02-03", "2024-01-02T00:00:00+00:00"⟩] := by
  constructor
  · exact (delete_reminder_spec _ 5).1 (by decide)
  · have h := ((delete_reminder_spec
      ⟨[⟨"Pay rent", "2024-01-01", "2024-01-01T00:00:00+00:00"⟩,
        ⟨"Dentist", "2024-02-03", "2024-01-02T00:00:00+00:00"⟩],
       [⟨"Pay rent", "2024-01-01", "2024-01-01T00:00:00+00:00"⟩,
        ⟨"Dentist", "2024-02-03", "2024-01-02T00:00:00+00:00"⟩]⟩ 0).2 (by decide)).1
    rw [h]
    rfl

/-- C10: a reminder created through `add_reminder` has `due.isoformat()` as
its due string, which parses back to exactly the original date, so the new
entry is never dropped by the unparsable-date filter: it appears in any range
query whose inclusive interval contains its due date. -/
theorem add_reminder_never_excluded (st : Store) (text created : String)
    (d : PyDate) (hd : ValidDate d) (start stop : PyDate)
    (hin : dateLe start d = true ∧ dateLe d stop = true) :
    parseIsoDate (isoformat d) = some d ∧
    (⟨pyStripStr text, isoformat d, created⟩ : Reminder) ∈
      get_reminders_for_range (add_reminder st text d created) start stop := by
  have hparse := parse_isoformat hd
  refine ⟨hparse, ?_⟩
  rw [query_mem]
  constructor
  · show _ ∈ st.reminders ++ [_]
    exact List.mem_append_right _ (List.mem_singleton.mpr rfl)
  · rw [inRange_eq_true]
    exact ⟨d, hparse, hin.1, hin.2⟩

/-- Witness for C10: the spec's "Pay rent" scenario, due 2024-01-01, queried
with the single-day range [2024-01-01, 2024-01-01]. -/
theorem add_reminder_never_excluded_witness :
    parseIsoDate (isoformat ⟨2024, 1, 1⟩) = some ⟨2024, 1, 1⟩ ∧
    (⟨pyStripStr "Pay rent", isoformat ⟨2024, 1, 1⟩,
      "2024-01-01T00:00:00+00:00"⟩ : Reminder) ∈
      get_reminders_for_range
        (add_reminder ⟨[], []⟩ "Pay rent" ⟨2024, 1, 1⟩ "2024-01-01T00:00:00+00:00")
        ⟨2024, 1, 1⟩ ⟨2024, 1, 1⟩ :=
  add_reminder_never_excluded ⟨[], []⟩ "Pay rent" "2024-01-01T00:00:00+00:00"
    ⟨2024, 1, 1⟩ (by decide) ⟨2024, 1, 1⟩ ⟨2024, 1, 1⟩ ⟨by decide, by decide⟩

/-! ### Persistence layer (`load_json` and the three documents) -/

/-- The on-disk state of one JSON document when the app starts. -/
inductive RawDoc
  | missing
  | content (text : String)

/-- `load_json(path, default)`: a missing file yields the default; a present
file is parsed, and any parse failure (corrupt JSON) is swallowed with a
warning and yields the default.  `parse` is the oracle for `json.load`. -/
def load_json {α : Type} (doc : RawDoc) (parse : String → Option α) (dflt : α) : α :=
  match doc with
  | .missing => dflt
  | .content s =>
    match parse s with
    | some v => v
    | none => dflt

/-- The settings document's shape. -/
structure Settings where
  city : String
  units : String
  tickers : List String
  timezone : String
  dark_mode : Bool
  deriving DecidableEq, Repr

/-- One favorites entry. -/
structure Favorite where
  name : String
  url : String
  deriving DecidableEq, Repr

/-- The hardcoded settings default passed to `load_json` at startup. -/
def default_settings : Settings :=
  { city := "Rocklin, CA", units := "F", tickers := ["AAPL", "MSFT", "NVDA"],
    timezone := "America/Los_Angeles", dark_mode := false }

/-- The hardcoded reminders default (`[]`). -/
def default_reminders : List Reminder := []

/-- The hardcoded favorites default (`[]`). -/
def default_favorites : List Favorite := []

/-! ### Stock client -/

/-- The parsed result of `yf.download(...)`: whether a `Close` column exists
and the rows, each a timestamp with an optional close price (`none` = NaN). -/
structure DownloadFrame where
  hasClose : Bool
  rows : List (Nat × Option Int)
  deriving DecidableEq, Repr

/-- `df["Close"].dropna()`: the NaN-free close series with its timestamps. -/
def closeSeries (df : DownloadFrame) : List (Nat × Int) :=
  df.rows.filterMap (fun p => p.2.map (fun v => (p.1, v)))

/-- `fetch_live_price_and_intraday(ticker)` over the download outcome:
`.error` is a raised exception inside `yf.download`, `.ok none` is `df is
None`, and `.ok (some df)` is a returned frame.  Every failure path gives
`(None, None)`; success gives the last close and the whole dropna'd series. -/
def fetch_live_price_and_intraday (dl : Except Unit (Option DownloadFrame)) :
    Option Int × Option (List (Nat × Int)) :=
  match dl with
  | .error _ => (none, none)
  | .ok none => (none, none)
  | .ok (some df) =>
    if df.rows.isEmpty || !df.hasClose then (none, none)
    else
      match (closeSeries df).getLast? with
      | none => (none, none)
      | some last => (some last.2, some (closeSeries df))

/-- The per-ticker metric column values: each ticker's displayed last price is
computed from its own fetch alone. -/
def stock_metrics (dls : List (Except Unit (Option DownloadFrame))) :
    List (Option Int) :=
  dls.map (fun dl => (fetch_live_price_and_intraday dl).1)

/-! ### Combining intraday series for the chart -/

/-- Looking a timestamp up in one series (a pandas reindex cell). -/
def lookupT (s : List (Nat × Int)) (t : Nat) : Option Int :=
  (s.find? (fun p => p.1 == t)).map Prod.snd

/-- The row index of `pd.concat(series_list, axis=1)`: the sorted union of
the series' timestamps (an outer join). -/
def unionIndex (ss : List (List (Nat × Int))) : List Nat :=
  ((ss.map (fun s => s.map Prod.fst)).flatten.dedup).insertionSort (· ≤ ·)

/-- The concatenated frame: one row per union timestamp, one optional cell
per series (missing timestamps become NaN). -/
def mergedRows (ss : List (List (Nat × Int))) : List (Nat × List (Option Int)) :=
  (unionIndex ss).map (fun t => (t, ss.map (fun s => lookupT s t)))

/-- `merged.dropna(how="all")`: keep the rows in which at least one series
has an observation. -/
def merged_chart (ss : List (List (Nat × Int))) : List (Nat × List (Option Int)) :=
  (mergedRows ss).filter (fun row => row.2.any (fun v => v.isSome))

/-- C6: for each of the three persisted documents, loading with the file
missing, or with contents that do not parse, returns exactly the hardcoded
default (settings dict, empty reminders list, empty favorites list); the
parse failure is swallowed, never raised (`load_json` is total). -/
theorem load_json_defaults
    (pS : String → Option Settings) (pR : String → Option (List Reminder))
    (pF : String → Option (List Favorite)) (s r f : String)
    (hS : pS s = none) (hR : pR r = none) (hF : pF f = none) :
    load_json .missing pS default_settings = default_settings ∧
    load_json (.content s) pS default_settings = default_settings ∧
    load_json .missing pR default_reminders = default_reminders ∧
    load_json (.content r) pR default_reminders = default_reminders ∧
    load_json .missing pF default_favorites = default_favorites ∧
    load_json (.content f) pF default_favorites = default_favorites := by
  refine ⟨rfl, ?_, rfl, ?_, rfl, ?_⟩ <;> simp [load_json, hS, hR, hF]

/-- Witness for C6 with parsers that reject the concrete corrupt text. -/
theorem load_json_defaults_witness :
    load_json .missing (fun _ => (none : Option Settings)) default_settings
      = default_settings ∧
    load_json (.content "corrupt not json") (fun _ => (none : Option Settings)) default_settings
      = default_settings ∧
    load_json .missing (fun _ => (none : Option (List Reminder))) default_reminders
      = default_reminders ∧
    load_json (.content "corrupt not json") (fun _ => (none : Option (List Reminder))) default_reminders
      = default_reminders ∧
    load_json .missing (fun _ => (none : Option (List Favorite))) default_favorites
      = default_favorites ∧
    load_json (.content "corrupt not json") (fun _ => (none : Option (List Favorite))) default_favorites
      = default_favorites :=
  load_json_defaults (fun _ => none) (fun _ => none) (fun _ => none)
    "corrupt not json" "corrupt not json" "corrupt not json" rfl rfl rfl

/-- C7: the stock fetch returns `(None, None)` on every failure — raised
exception, `None` frame, empty frame, missing `Close` column, or all-NaN
close series — and never propagates an exception (it is total); on success it
returns the last closing price together with the whole 1-minute close series. -/
theorem fetch_live_price_spec (dl : Except Unit (Option DownloadFrame)) :
    ((dl = .error () ∨ dl = .ok none ∨
      ∃ df, dl = .ok (some df) ∧
        (df.rows = [] ∨ df.hasClose = false ∨ closeSeries df = [])) →
      fetch_live_price_and_intraday dl = (none, none)) ∧
    (∀ df tp, dl = .ok (some df) → df.hasClose = true →
      (closeSeries df).getLast? = some tp →
      fetch_live_price_and_intraday dl = (some tp.2, some (closeSeries df))) := by
  constructor
  · intro h
    rcases h with rfl | rfl | ⟨df, rfl, hcase⟩
    · rfl
    · rfl
    · rcases hcase with hrows | hclose | hser
      · simp [fetch_live_price_and_intraday, hrows]
      · simp [fetch_live_price_and_intraday, hclose]
      · by_cases hrows : df.rows.isEmpty
        · simp [fetch_live_price_and_intraday, hrows]
        · simp [fetch_live_price_and_intraday, hrows, hser]
  · intro df tp hdl hclose hlast
    subst hdl
    have hser_ne : closeSeries df ≠ [] := by
      intro hnil
      rw [hnil] at hlast
      exact Option.noConfusion hlast
    have hrows_ne : df.rows.isEmpty = false := by
      rw [List.isEmpty_eq_false_iff_exists_mem]
      rcases List.exists_mem_of_ne_nil _ hser_ne with ⟨p, hp⟩
      unfold closeSeries at hp
      rcases List.mem_filterMap.mp hp with ⟨q, hq, -⟩
      exact ⟨q, hq⟩
    simp only [fetch_live_price_and_intraday, hrows_ne, hclose,
      Bool.not_true, Bool.or_false, Bool.false_eq_true, ite_false]
    rw [hlast]

/-- Witness for C7: a frame with a NaN gap succeeds with the last close and
the dropna'd series; an all-NaN frame fails to `(none, none)`. -/
theorem fetch_live_price_spec_witness :
    fetch_live_price_and_intraday
      (.ok (some ⟨true, [(0, some 5), (1, none), (2, some 7)]⟩))
      = (some 7, some [(0, 5), (2, 7)]) ∧
    fetch_live_price_and_intraday (.ok (some ⟨true, [(0, none)]⟩))
      = (none, none) := by
  constructor
  · exact (fetch_live_price_spec
      (.ok (some ⟨true, [(0, some 5), (1, none), (2, some 7)]⟩))).2
      ⟨true, [(0, some 5), (1, none), (2, some 7)]⟩ (2, 7) rfl rfl (by decide)
  · exact (fetch_live_price_spec (.ok (some ⟨true, [(0, none)]⟩))).1
      (Or.inr (Or.inr ⟨⟨true, [(0, none)]⟩, rfl, Or.inr (Or.inr (by decide))⟩))

/-! ### The merged chart keeps the union of timestamps, not the intersection -/

theorem lookupT_isSome {s : List (Nat × Int)} {t : Nat} (h : t ∈ s.map Prod.fst) :
    (lookupT s t).isSome = true := by
  rcases List.mem_map.mp h with ⟨p, hp, rfl⟩
  unfold lookupT
  have hfind : (s.find? (fun q => q.1 == p.1)).isSome = true := by
    rw [List.find?_isSome]
    exact ⟨p, hp, by simp⟩
  rcases Option.isSome_iff_exists.mp hfind with ⟨q, hq⟩
  rw [hq]
  rfl

theorem mem_unionIndex {ss : List (List (Nat × Int))} {t : Nat} :
    t ∈ unionIndex ss ↔ ∃ s ∈ ss, t ∈ s.map Prod.fst := by
  unfold unionIndex
  rw [(List.perm_insertionSort _ _).mem_iff, List.mem_dedup, List.mem_flatten]
  constructor
  · rintro ⟨l, hl, ht⟩
    rcases List.mem_map.mp hl with ⟨s, hs, rfl⟩
    exact ⟨s, hs, ht⟩
  · rintro ⟨s, hs, ht⟩
    exact ⟨s.map Prod.fst, List.mem_map_of_mem _ hs, ht⟩

/-- `dropna(how="all")` drops nothing here: every union timestamp has an
observation in at least one series, so no row is all-NaN. -/
theorem merged_chart_eq_mergedRows (ss : List (List (Nat × Int))) :
    merged_chart ss = mergedRows ss := by
  unfold merged_chart
  rw [List.filter_eq_self]
  intro row hrow
  unfold mergedRows at hrow
  rcases List.mem_map.mp hrow with ⟨t, ht, rfl⟩
  rw [List.any_eq_true]
  rcases mem_unionIndex.mp ht with ⟨s, hs, hts⟩
  exact ⟨lookupT s t, List.mem_map_of_mem _ hs, lookupT_isSome hts⟩

/-- C8 counterexample: with the concrete fetched series `[(0, 10)]` and
`[(1, 20)]` (disjoint timestamps), the combined chart view contains timestamp
`0` even though the second fetched series has no observation there — the
claim's "only timestamps present in every fetched series" fails. -/
theorem merged_chart_keeps_non_overlapping :
    (0 : Nat) ∈ (merged_chart [[(0, 10)], [(1, 20)]]).map Prod.fst ∧
    [(1, 20)] ∈ ([[(0, 10)], [(1, 20)]] : List (List (Nat × Int))) ∧
    (0 : Nat) ∉ ([(1, 20)] : List (Nat × Int)).map Prod.fst := by decide

/-- C8 (amended): the combined chart view contains exactly the timestamps
present in at least one fetched series (`pd.concat(axis=1)` outer-joins the
indexes, and `dropna(how="all")` only drops rows at which every series lacks
an observation — which never happens for dropna'd input series); each
ticker's displayed last price is computed from its own fetch alone,
independent of the other series. -/
theorem merged_chart_outer_union (ss : List (List (Nat × Int))) :
    (merged_chart ss).map Prod.fst = unionIndex ss ∧
    (∀ t, t ∈ (merged_chart ss).map Prod.fst ↔ ∃ s ∈ ss, t ∈ s.map Prod.fst) ∧
    (∀ (dls dls' : List (Except Unit (Option DownloadFrame))) (i : Nat),
      dls[i]? = dls'[i]? → (stock_metrics dls)[i]? = (stock_metrics dls')[i]?) := by
  have h1 : (merged_chart ss).map Prod.fst = unionIndex ss := by
    rw [merged_chart_eq_mergedRows]
    unfold mergedRows
    rw [List.map_map]
    exact List.map_id _
  refine ⟨h1, fun t => ?_, fun dls dls' i h => ?_⟩
  · rw [h1, mem_unionIndex]
  · unfold stock_metrics
    rw [List.getElem?_map, List.getElem?_map, h]

/-- Witness for C8's amended theorem at the counterexample's series pair and
a concrete metric-independence instance. -/
theorem merged_chart_outer_union_witness :
    ((merged_chart [[(0, 10)], [(1, 20)]]).map Prod.fst
      = unionIndex [[(0, 10)], [(1, 20)]]) ∧
    (∀ t, t ∈ (merged_chart [[(0, 10)], [(1, 20)]]).map Prod.fst ↔
      ∃ s ∈ ([[(0, 10)], [(1, 20)]] : List (List (Nat × Int))), t ∈ s.map Prod.fst) ∧
    (∀ (dls dls' : List (Except Unit (Option DownloadFrame))) (i : Nat),
      dls[i]? = dls'[i]? → (stock_metrics dls)[i]? = (stock_metrics dls')[i]?) :=
  merged_chart_outer_union [[(0, 10)], [(1, 20)]]

end Dashboard
